import Mathlib

/-!
Verification development for the ReSketch frequency sketch.

This file gives a shallow embedding of the core data structures and
operations of the repository:

* `src/src/quantile_summary/kll.hpp` — the KLL quantile summary
  (class `KLL`): `update`, weighted `update`, `merge`, `estimate`,
  `get_rank`, `get_count_in_range`, `rebuild`, `_compress`,
  `_get_level_capacity`.
* `src/src/frequency_summary/resketch.hpp` — the sketch itself
  (class `ReSketch`): construction, `update`, `estimate`, `expand`,
  `shrink`, `merge`, `split`, `_find_bucket_id`, `_remap_row`,
  `_initialize_rings`.

Modelling conventions:

* 64-bit machine integers become `Nat` with arithmetic taken `% 2^64`
  where C++ would wrap; counts and sizes are exact `Nat`s.  The C++
  code stores integral counts in `double`s (`get_count_in_range`,
  `estimate`); those values are integers, so they are modelled as `Nat`
  (`Rat` where a genuine division occurs, in `ReSketch::estimate`).
* All randomness in the source is drawn from generators seeded with
  `std::random_device` (ring points, `std::shuffle` in `shrink`, the
  Bernoulli coin of `KLL::_compress`).  Those draws are modelled as
  explicit inputs: an `entropy : List Nat` stream of 64-bit draws, a
  `coins : List Bool` stream for the compaction coin, and for `shrink`
  the post-shuffle rings themselves.
* `KLL::_compress` recurses upward and (for `k = 1`) need not
  terminate; the embedding gives the recursion explicit `fuel`.  All
  facts proved below either evaluate concrete runs with enough fuel or
  hold for every fuel value.
* Out-of-range `std::vector` indexing is undefined behaviour in C++;
  the embedding reads with `List.getD` (default element) and writes
  with `updateAt` (no-op when out of range).  Comments mark the places
  where the C++ would actually index out of range.
-/

namespace ReSketchModel

/-- `2^64`, the modulus of 64-bit hash arithmetic. -/
def U64 : Nat := 18446744073709551616

/-- `std::numeric_limits<uint32_t>::max()`, used as the sentinel id in
`ReSketch::_find_bucket_id` and as the level capacity when `k = 0`. -/
def U32MAX : Nat := 4294967295

/-- Write `f` at index `i` of a list; no-op when out of range
(the C++ `operator[]` write would be UB there). -/
def updateAt : List α → Nat → (α → α) → List α
  | [], _, _ => []
  | x :: xs, 0, f => f x :: xs
  | x :: xs, i + 1, f => x :: updateAt xs i f

/-! ## KLL (src/src/quantile_summary/kll.hpp) -/

/-- State of `class KLL`: parameter `k` (`m_config.k`), total count
`m_n`, the compactor stack `m_compactors`, and the modelled stream of
Bernoulli(1/2) draws of `m_dist(m_rng)` used by `_compress`. -/
structure KLL where
  k : Nat
  n : Nat
  compactors : List (List Nat)
  coins : List Bool
  deriving DecidableEq, Repr

/-- `KLL(const KLLConfig&)`: one empty compactor level. -/
def KLL.mk0 (k : Nat) (coins : List Bool) : KLL :=
  { k := k, n := 0, compactors := [[]], coins := coins }

/-- `KLL()` (default constructor): `k = 0` and no compactor levels. -/
def KLL.default0 : KLL :=
  { k := 0, n := 0, compactors := [], coins := [] }

/-- `KLL::_get_level_capacity`: `⌈k · (2/3)^(numLevels-1-level)⌉`, and
`uint32` max when `k = 0`.  The C++ computes the ceiling through
`double`s; the model uses the exact rational ceiling. -/
def levelCapacity (k numLevels level : Nat) : Nat :=
  if k = 0 then U32MAX
  else
    let m := numLevels - 1 - level
    (k * 2 ^ m + (3 ^ m - 1)) / 3 ^ m

/-- Insertion step for sorting a compactor level (`std::sort` on
`uint64_t`). -/
def insNat (x : Nat) : List Nat → List Nat
  | [] => [x]
  | y :: ys => if x ≤ y then x :: y :: ys else y :: insNat x ys

/-- Sorted rearrangement of a level, as `std::sort` produces. -/
def sortNat (l : List Nat) : List Nat := l.foldr insNat []

/-- The in-place compaction loop of `KLL::_compress`: keep the
elements at indices `offset, offset+2, …` (here after dropping
`offset`, the elements at even positions). -/
def takeEveryOther : List Nat → List Nat
  | [] => []
  | [x] => [x]
  | x :: _ :: rest => x :: takeEveryOther rest

/-- `KLL::_compress(level)`.  Guard, conditional `emplace_back`, sort,
random offset (one coin), in-place halving, move to `level+1`, clear
`level`, cascade.  `fuel` bounds the cascade depth. -/
def KLL.compress (s : KLL) (fuel level : Nat) : KLL :=
  match fuel with
  | 0 => s
  | fuel + 1 =>
    if s.compactors.length ≤ level ∨
        (s.compactors.getD level []).length < levelCapacity s.k s.compactors.length level then s
    else
      let comps0 := if s.compactors.length ≤ level + 1 then s.compactors ++ [[]] else s.compactors
      let sorted := sortNat (comps0.getD level [])
      let offset := if s.coins.headD false then 1 else 0
      let keepers := takeEveryOther (sorted.drop offset)
      let comps1 := updateAt comps0 (level + 1) (fun t => t ++ keepers)
      let comps2 := updateAt comps1 level (fun _ => [])
      let s' : KLL := { s with compactors := comps2, coins := s.coins.drop 1 }
      if levelCapacity s'.k s'.compactors.length (level + 1) ≤
          (s'.compactors.getD (level + 1) []).length then
        s'.compress fuel (level + 1)
      else s'

/-- `KLL::update(item)`: push onto level 0, bump `m_n`, compact if
level 0 reached capacity.  (A default-constructed `KLL` has no level 0;
there the C++ indexing would be UB and the model leaves the state.) -/
def KLL.update (s : KLL) (item fuel : Nat) : KLL :=
  let s' : KLL := { s with compactors := updateAt s.compactors 0 (fun l => l ++ [item]),
                           n := s.n + 1 }
  if levelCapacity s'.k s'.compactors.length 0 ≤ (s'.compactors.getD 0 []).length then
    s'.compress fuel 0
  else s'

/-- `m_compactors.resize(len)` (growth only, padding with empty
levels). -/
def padToLen (comps : List (List Nat)) (len : Nat) : List (List Nat) :=
  comps ++ List.replicate (len - comps.length) []

/-- The bit loop of weighted `KLL::update(item, weight)`: push `item`
onto level `j` for every set bit `j` of `weight`, resizing as needed. -/
def pushBits (item : Nat) : Nat → Nat → List (List Nat) → List (List Nat)
  | 0, _, comps => comps
  | w + 1, level, comps =>
    let comps := if (w + 1) % 2 = 1 then
        updateAt (padToLen comps (level + 1)) level (fun l => l ++ [item])
      else comps
    pushBits item ((w + 1) / 2) (level + 1) comps
  termination_by w => w
  decreasing_by exact Nat.div_lt_self (Nat.succ_pos _) (by omega)

/-- The final loop of weighted update and of `KLL::merge`: scan the
levels in order, compacting each overfull one (`m_compactors.size()`
is re-read every iteration, so `fuel` bounds the scan). -/
def KLL.compressAll (s : KLL) (fuel i : Nat) : KLL :=
  match fuel with
  | 0 => s
  | fuel + 1 =>
    if s.compactors.length ≤ i then s
    else
      let s' := if levelCapacity s.k s.compactors.length i ≤
          (s.compactors.getD i []).length then s.compress fuel i else s
      s'.compressAll fuel (i + 1)

/-- Weighted `KLL::update(item, weight, compress)`. -/
def KLL.updateWeighted (s : KLL) (item weight : Nat) (compressFlag : Bool) (fuel : Nat) : KLL :=
  if weight = 0 then s
  else
    let s' : KLL := { s with n := s.n + weight, compactors := pushBits item weight 0 s.compactors }
    if compressFlag then s'.compressAll fuel 0 else s'

/-- The resize-and-append of `KLL::merge(other)`: level `i` of the
result is `a`'s level `i` followed by `b`'s level `i`. -/
def appendLevels : List (List Nat) → List (List Nat) → List (List Nat)
  | as, [] => as
  | [], b :: bs => b :: appendLevels [] bs
  | a :: as, b :: bs => (a ++ b) :: appendLevels as bs

/-- `KLL::merge(const KLL&)`.  (The C++ throws when the `k` parameters
differ; every call site in the sketch merges equal-`k` summaries, and
the claims below use it only so.) -/
def KLL.mergeKLL (a b : KLL) (fuel : Nat) : KLL :=
  let s : KLL := { a with n := a.n + b.n, compactors := appendLevels a.compactors b.compactors }
  s.compressAll fuel 0

/-- `KLL::estimate(item)`: `Σ_L (count of item in level L) · 2^L`. -/
def KLL.estimateVal (s : KLL) (item : Nat) : Nat :=
  s.compactors.enum.foldl
    (fun acc p => acc + p.2.countP (fun v => v == item) * 2 ^ p.1) 0

/-- `KLL::get_rank(value)`: `Σ_L (count of v ≤ value in level L) · 2^L`. -/
def KLL.rank (s : KLL) (value : Nat) : Nat :=
  s.compactors.enum.foldl
    (fun acc p => acc + p.2.countP (fun v => decide (v ≤ value)) * 2 ^ p.1) 0

/-- `KLL::get_count_in_range(start_h, end_h)`:
`Σ_L (count of v with start_h < v ≤ end_h in level L) · 2^L`. -/
def KLL.countInRange (s : KLL) (lo hi : Nat) : Nat :=
  s.compactors.enum.foldl
    (fun acc p => acc + p.2.countP (fun v => decide (lo < v) && decide (v ≤ hi)) * 2 ^ p.1) 0

/-- The per-level retain loop of `KLL::rebuild`: push each item in
`(lo, hi]`, in order. -/
def rebuildLevel (lo hi : Nat) (lvl : List Nat) : List Nat :=
  lvl.foldl (fun acc v => if lo < v ∧ v ≤ hi then acc ++ [v] else acc) []

/-- The weight accumulated into `new_sketch.m_n` by one level of
`KLL::rebuild`. -/
def rebuildWeight (lo hi w : Nat) (lvl : List Nat) : Nat :=
  lvl.foldl (fun acc v => if lo < v ∧ v ≤ hi then acc + w else acc) 0

/-- `KLL::rebuild(start_h, end_h)`: a fresh `KLL(m_config)` (one empty
level), resized to the source's level count when the source has any,
each level refilled with the source items in `(lo, hi]`, `m_n`
accumulating their weights. -/
def KLL.rebuild (s : KLL) (lo hi : Nat) : KLL :=
  let lvls := if s.compactors.isEmpty then [[]] else s.compactors
  { k := s.k,
    n := lvls.enum.foldl (fun acc p => acc + rebuildWeight lo hi (2 ^ p.1) p.2) 0,
    compactors := lvls.map (rebuildLevel lo hi),
    coins := [] }

/-- Total stored weight `Σ_L |level L| · 2^L` (the quantity the data
model's invariant equates with `m_n`). -/
def KLL.totalWeight (s : KLL) : Nat :=
  s.compactors.enum.foldl (fun acc p => acc + p.2.length * 2 ^ p.1) 0

/-! ## Hashing and rings (src/src/frequency_summary/resketch.hpp) -/

/-- `ReSketch::_full_domain_hash` (the splitmix64 finalizer kept in
resketch.hpp). -/
def fullDomainHash (x : Nat) : Nat :=
  let x := (x + 0x9e3779b97f4a7c15) % U64
  let x := ((x ^^^ (x >>> 30)) * 0xbf58476d1ce4e5b9) % U64
  let x := ((x ^^^ (x >>> 27)) * 0x94d049bb133111eb) % U64
  x ^^^ (x >>> 31)

/-- Modelled from the spec: the active `ReSketch::_hash` delegates to
`XXHash64::hash` whose implementation (`hash/xxhash64.hpp`) is not
under `src/`; the spec requires only a strong, deterministic, seedable
64-bit mixing hash.  The model uses the seeded full-domain-hash
combination that resketch.hpp itself retains in its alternative
`_hash` definition. -/
def hashItem (item seed : Nat) : Nat :=
  fullDomainHash (item % U64) ^^^ fullDomainHash (seed % U64)

/-- A ring row: `std::vector<std::pair<uint64_t point, uint32_t
bucket_id>>`, kept sorted. -/
abbrev Ring := List (Nat × Nat)

/-- Insertion step for ring sorting (`std::sort` with
`std::pair::operator<`, i.e. lexicographic order). -/
def insPair (x : Nat × Nat) : Ring → Ring
  | [] => [x]
  | y :: ys => if x.1 < y.1 ∨ (x.1 = y.1 ∧ x.2 ≤ y.2) then x :: y :: ys else y :: insPair x ys

/-- Sorted rearrangement of a ring. -/
def sortRing (r : Ring) : Ring := r.foldr insPair []

/-- `ReSketch::_find_bucket_id(item_hash, ring)`:
`std::lower_bound` over the sorted ring with key
`(item_hash, uint32_max)` — the first entry `e` with
`(h, uint32_max) ≤ e` lexicographically — returning its bucket id,
wrapping to the front entry when no entry qualifies, and `0` on an
empty ring. -/
def findBucketId (h : Nat) (ring : Ring) : Nat :=
  match ring.find? (fun e => decide (h < e.1) || (decide (e.1 = h) && decide (U32MAX ≤ e.2))) with
  | some e => e.2
  | none =>
    match ring with
    | [] => 0
    | e :: _ => e.2

/-- `std::set<uint64_t>::insert` into a sorted duplicate-free list. -/
def insertSorted (x : Nat) : List Nat → List Nat
  | [] => [x]
  | y :: ys => if x < y then x :: y :: ys else if x = y then y :: ys else y :: insertSorted x ys

/-- The `point_set` of `ReSketch::_remap_row`: all ring points of both
rings, sorted and deduplicated. -/
def allPoints (in_ring out_ring : Ring) : List Nat :=
  (in_ring ++ out_ring).foldl (fun acc e => insertSorted e.1 acc) []

/-! ## Buckets and the remap algorithm -/

/-- `ReSketch::Bucket`: an auxiliary count plus the KLL summarizing
the placement hashes routed to the bucket. -/
structure Bucket where
  count : Nat
  q_sketch : KLL
  deriving DecidableEq, Repr

/-- `Bucket(const KLLConfig&)`. -/
def Bucket.mk0 (k : Nat) (coins : List Bool) : Bucket :=
  { count := 0, q_sketch := KLL.mk0 k coins }

/-- `Bucket{}` (default-constructed: default `KLL`). -/
def defaultBucket : Bucket :=
  { count := 0, q_sketch := KLL.default0 }

/-- One arc iteration of the loop in `ReSketch::_remap_row`: look up
the input and output bucket for the arc's lower endpoint, count the
input bucket's mass in `(prev, cur]`, and if positive add it to the
output bucket's count (`std::round` of an exact integer) and merge the
range-rebuilt sub-summary into the output bucket's KLL.  A write at an
out-of-range `out_id` would be UB in the C++ (`out_buckets[out_id]` on
a too-short vector); `updateAt` makes it a no-op. -/
def remapStep (in_ring out_ring : Ring) (in_buckets : List Bucket) (fuel prev cur : Nat)
    (acc : List Bucket) : List Bucket :=
  let in_id := findBucketId prev in_ring
  let out_id := findBucketId prev out_ring
  let inb := in_buckets.getD in_id defaultBucket
  let cnt := inb.q_sketch.countInRange prev cur
  if 0 < cnt then
    updateAt acc out_id (fun b =>
      { count := b.count + cnt,
        q_sketch := b.q_sketch.mergeKLL (inb.q_sketch.rebuild prev cur) fuel })
  else acc

/-- The arc traversal of `ReSketch::_remap_row`: `prev` starts at the
last point and walks through the sorted point list. -/
def remapGo (in_ring out_ring : Ring) (in_buckets : List Bucket) (fuel : Nat) :
    List Nat → Nat → List Bucket → List Bucket
  | [], _, acc => acc
  | cur :: rest, prev, acc =>
    remapGo in_ring out_ring in_buckets fuel rest cur
      (remapStep in_ring out_ring in_buckets fuel prev cur acc)

/-- The body of `ReSketch::_remap_row` once the input is known
non-empty and the KLL config `k` of `in_buckets[0]` has been read:
fresh output buckets, the sorted union of points; if it is empty
return the fresh buckets, otherwise start the arc walk at the last
point. -/
def remapCore (rin rout : Ring) (bks : List Bucket) (fuel k : Nat) : List Bucket :=
  match (allPoints rin rout).getLast? with
  | none => rout.map (fun _ => Bucket.mk0 k [])
  | some last =>
    remapGo rin rout bks fuel (allPoints rin rout) last
      (rout.map (fun _ => Bucket.mk0 k []))

/-- `ReSketch::_remap_row(in_ring, in_buckets, out_ring)`. -/
def remapRow (in_ring : Ring) (in_buckets : List Bucket) (out_ring : Ring) (fuel : Nat) :
    List Bucket :=
  match in_buckets with
  | [] => List.replicate out_ring.length defaultBucket
  | b0 :: _ => remapCore in_ring out_ring in_buckets fuel b0.q_sketch.k

/-! ## The sketch -/

/-- `class ReSketch`: width, depth, per-row seeds, KLL parameter, the
per-row rings and bucket arrays. -/
structure ReSketch where
  width : Nat
  depth : Nat
  seeds : List Nat
  kll_k : Nat
  rings : List Ring
  buckets : List (List Bucket)
  deriving DecidableEq, Repr

/-- `ReSketch::_initialize_rings`: per row, `width` pairs
`(random_point, j)` (points drawn from an `mt19937_64` seeded by
`std::random_device`, modelled by the `entropy` stream), then sorted. -/
def initRings (depth width : Nat) (entropy : List Nat) : List Ring :=
  (List.range depth).map (fun i =>
    sortRing ((List.range width).map (fun j => (entropy.getD (i * width + j) 0, j))))

/-- `ReSketch::_initialize_buckets`: `depth × width` buckets, each
holding a fresh `KLL(m_kll_config)`. -/
def initBuckets (depth width k : Nat) (coins : List Bool) : List (List Bucket) :=
  (List.range depth).map (fun _ => (List.range width).map (fun _ => Bucket.mk0 k coins))

/-- The `ReSketch(depth, width, seeds, kll_k)` constructor. -/
def mkReSketch (depth width : Nat) (seeds : List Nat) (k : Nat) (entropy : List Nat)
    (coins : List Bool) : ReSketch :=
  { width := width, depth := depth, seeds := seeds, kll_k := k,
    rings := initRings depth width entropy,
    buckets := initBuckets depth width k coins }

/-- `ReSketch::update(item)`: per row, hash, ring lookup, bump the
bucket count and feed the hash to the bucket's KLL. -/
def ReSketch.update (s : ReSketch) (item fuel : Nat) : ReSketch :=
  { s with buckets :=
      (List.range s.depth).foldl (fun bks i =>
        let h := hashItem item (s.seeds.getD i 0)
        let id := findBucketId h (s.rings.getD i [])
        updateAt bks i (fun row => updateAt row id (fun b =>
          { count := b.count + 1, q_sketch := b.q_sketch.update h fuel }))) s.buckets }

/-- The loop body of `ReSketch::estimate` for row `i`: hash the item
with the row seed, look the hash up in the row's ring, and take the
selected bucket's KLL estimate of the hash. -/
def ReSketch.rowEstimate (s : ReSketch) (item i : Nat) : Nat :=
  let h := hashItem item (s.seeds.getD i 0)
  let id := findBucketId h (s.rings.getD i [])
  ((s.buckets.getD i []).getD id defaultBucket).q_sketch.estimateVal h

/-- The accumulated `total_kll_est` of `ReSketch::estimate` (an
integer-valued `double` in the C++). -/
def ReSketch.estimateTotal (s : ReSketch) (item : Nat) : Nat :=
  (List.range s.depth).foldl (fun acc i => acc + s.rowEstimate item i) 0

/-- `ReSketch::estimate(item)`: the row total divided by the depth. -/
def ReSketch.estimate (s : ReSketch) (item : Nat) : ℚ :=
  (s.estimateTotal item : ℚ) / (s.depth : ℚ)

/-- The error taxonomy of the spec, mapped onto the
`std::invalid_argument` throw sites of resketch.hpp. -/
inductive SketchError
  | invalidResize
  | invalidSplit
  | incompatibleSketches
  deriving DecidableEq, Repr

/-- `ReSketch::expand(new_width)`: reject `new_width ≤ width`;
otherwise per row append `new_width - width` fresh random points with
sequential ids `width + j`, sort, and remap the old buckets onto the
grown ring. -/
def ReSketch.expand (s : ReSketch) (new_width : Nat) (entropy : List Nat) (fuel : Nat) :
    Except SketchError ReSketch :=
  if new_width ≤ s.width then .error .invalidResize
  else
    let add := new_width - s.width
    let rings' := (List.range s.depth).map (fun i =>
      sortRing ((s.rings.getD i []) ++
        (List.range add).map (fun j => (entropy.getD (i * add + j) 0, s.width + j))))
    let buckets' := (List.range s.depth).map (fun i =>
      remapRow (s.rings.getD i []) (s.buckets.getD i []) (rings'.getD i []) fuel)
    .ok { s with width := new_width, rings := rings', buckets := buckets' }

/-- The reindexing in `ReSketch::shrink`: sort the surviving entries
by bucket id, reassign ids `0 … len-1` in that order. -/
def insById (x : Nat × Nat) : Ring → Ring
  | [] => [x]
  | y :: ys => if x.2 ≤ y.2 then x :: y :: ys else y :: insById x ys

/-- Sort survivors by original bucket id and reassign contiguous ids. -/
def reindexById (r : Ring) : Ring :=
  (r.foldr insById []).enum.map (fun p => (p.2.1, p.1))

/-- `ReSketch::shrink(new_width)`: reject `new_width ≥ width`;
otherwise per row shuffle the ring (`std::shuffle` with an unseeded
`mt19937_64`, modelled by the caller-supplied `shuffled` rings),
truncate to `new_width`, reindex ids contiguously, re-sort by point,
and remap the old buckets onto the reduced ring.  Note the C++ accepts
`new_width = 0`. -/
def ReSketch.shrink (s : ReSketch) (new_width : Nat) (shuffled : List Ring) (fuel : Nat) :
    Except SketchError ReSketch :=
  if s.width ≤ new_width then .error .invalidResize
  else
    let rings' := (List.range s.depth).map (fun i =>
      sortRing (reindexById ((shuffled.getD i []).take new_width)))
    let buckets' := (List.range s.depth).map (fun i =>
      remapRow (s.rings.getD i []) (s.buckets.getD i []) (rings'.getD i []) fuel)
    .ok { s with width := new_width, rings := rings', buckets := buckets' }

/-- `ReSketch::merge(s1, s2)`: reject when depths or `k` differ;
otherwise construct a fresh sketch of width `s1.width + s2.width`
(whose rings are freshly drawn random rings), remap each source row
onto the fresh ring, and combine the two temporary bucket vectors
bucketwise (sum the counts, merge the KLLs). -/
def mergeSketch (s1 s2 : ReSketch) (entropy : List Nat) (coins : List Bool) (fuel : Nat) :
    Except SketchError ReSketch :=
  if s1.depth ≠ s2.depth ∨ s1.kll_k ≠ s2.kll_k then .error .incompatibleSketches
  else
    let new_width := s1.width + s2.width
    let base := mkReSketch s1.depth new_width s1.seeds s1.kll_k entropy coins
    let buckets' := (List.range s1.depth).map (fun i =>
      let t1 := remapRow (s1.rings.getD i []) (s1.buckets.getD i []) (base.rings.getD i []) fuel
      let t2 := remapRow (s2.rings.getD i []) (s2.buckets.getD i []) (base.rings.getD i []) fuel
      (List.range new_width).map (fun j =>
        { count := (t1.getD j defaultBucket).count + (t2.getD j defaultBucket).count,
          q_sketch := ((t1.getD j defaultBucket).q_sketch).mergeKLL
            ((t2.getD j defaultBucket).q_sketch) fuel }))
    .ok { base with buckets := buckets' }

/-- `ReSketch::split(sketch, width_1, width_2)`: reject when the
widths do not sum to the parent's; otherwise construct two fresh
children (their freshly drawn rings and buckets are then fully
overwritten by `assign`): child 1 takes the first `width_1` ring
entries and the first `width_1` buckets of each row, child 2 the
rest.  Ring entries keep their original bucket ids. -/
def splitSketch (s : ReSketch) (w1 w2 : Nat) (entropy1 entropy2 : List Nat)
    (coins : List Bool) : Except SketchError (ReSketch × ReSketch) :=
  if w1 + w2 ≠ s.width then .error .invalidSplit
  else
    let base1 := mkReSketch s.depth w1 s.seeds s.kll_k entropy1 coins
    let base2 := mkReSketch s.depth w2 s.seeds s.kll_k entropy2 coins
    .ok
      ({ base1 with
          rings := (List.range s.depth).map (fun i => (s.rings.getD i []).take w1),
          buckets := (List.range s.depth).map (fun i => (s.buckets.getD i []).take w1) },
       { base2 with
          rings := (List.range s.depth).map (fun i => (s.rings.getD i []).drop w1),
          buckets := (List.range s.depth).map (fun i => (s.buckets.getD i []).drop w1) })

/-! ## Spec-side definitions (for refinement comparisons)

These definitions follow the specification's words, to be compared
with the definitions above that were translated from the source. -/

/-- The merged ring as the spec describes it: the concatenation of the
two source rings' `(point, bucket_id)` pairs with the second ring's
bucket ids offset by the first sketch's width, then sorted. -/
def offsetConcatRing (r1 r2 : Ring) (w1 : Nat) : Ring :=
  sortRing (r1 ++ r2.map (fun e => (e.1, e.2 + w1)))

/-- The ring entry with the smallest point among a list of entries
(first one on ties). -/
def minByPoint : Ring → Option (Nat × Nat)
  | [] => none
  | e :: es => some (es.foldl (fun m x => if x.1 < m.1 then x else m) e)

/-- The spec's bucket-assignment rule as the claim states it: the ring
entry with the smallest point `≥ h`, wrapping to the first entry if
none exists. -/
def specSelectGE (h : Nat) (ring : Ring) : Nat :=
  match minByPoint (ring.filter (fun e => decide (h ≤ e.1))) with
  | some e => e.2
  | none => (ring.headD (0, 0)).2

/-- The bucket-assignment rule amended to what the code's
`lower_bound` key `(h, uint32_max)` implements: the ring entry with
the smallest point strictly greater than `h`, wrapping to the first
entry if none exists. -/
def specSelectGT (h : Nat) (ring : Ring) : Nat :=
  match minByPoint (ring.filter (fun e => decide (h < e.1))) with
  | some e => e.2
  | none => (ring.headD (0, 0)).2

/-- The spec's estimate formula as the claim states it: the mean over
rows of the selected bucket's KLL estimate, with bucket selection by
the smallest-point-`≥` rule. -/
def specEstimateGE (s : ReSketch) (item : Nat) : ℚ :=
  (((List.range s.depth).map (fun i =>
    let h := hashItem item (s.seeds.getD i 0)
    (((s.buckets.getD i []).getD (specSelectGE h (s.rings.getD i []))
        defaultBucket).q_sketch.estimateVal h : ℚ))).sum) / (s.depth : ℚ)

/-- Total number of stored entries across all buckets' compactor
levels (used to bound level growth during a remap). -/
def bucketsItemCount (bks : List Bucket) : Nat :=
  (bks.map (fun b => (b.q_sketch.compactors.map List.length).sum)).sum

/-! ## Concrete inputs used by the counterexamples and failing runs -/

/-- A depth-1, width-2 sketch whose entropy draws come out in
descending order, so the sorted ring is `[(10, 1), (20, 0)]` (bucket
ids are assigned before sorting). -/
def permRingSketch : ReSketch := mkReSketch 1 2 [7] 5 [20, 10] []

/-- A depth-1, width-1 sketch with row seed 1 and ring point 10. -/
def sketchSeedOne : ReSketch := mkReSketch 1 1 [1] 5 [10] []

/-- A depth-1, width-1 sketch with row seed 2 and ring point 20. -/
def sketchSeedTwo : ReSketch := mkReSketch 1 1 [2] 5 [20] []

/-- A one-bucket input row for the remap counterexample: the bucket's
KLL stores the single hash value `3` at level 0 (weight 1, `n = 1`). -/
def wrapInBuckets : List Bucket :=
  [{ count := 1, q_sketch := { k := 100, n := 1, compactors := [[3]], coins := [] } }]

/-- The KLL run that breaks the weight invariant: `k = 3`, three plain
updates, the compaction coin drawn `false` (offset 0). -/
def oddCompactKLL : KLL :=
  (((KLL.mk0 3 [false]).update 1 9).update 2 9).update 3 9

/-- Interior-remap witness: one-entry input ring. -/
def wInRing : Ring := [(10, 0)]

/-- Interior-remap witness: two-entry output ring. -/
def wOutRing : Ring := [(5, 0), (15, 1)]

/-- Interior-remap witness: a single input bucket whose KLL (with
`k = 0`, the unbounded-capacity configuration) stores the value 7 at
level 0. -/
def wInBuckets : List Bucket :=
  [{ count := 1, q_sketch := { k := 0, n := 1, compactors := [[7]], coins := [] } }]

/-- The hash the modelled `_hash` assigns to item 3 under seed 7
(`hashItem 3 7`); a ring point placed exactly there exercises the
lookup tie-break. -/
def tiePoint : Nat := 9133569426840584762

/-- A depth-1, width-2 sketch whose ring points are `tiePoint` and
`tiePoint + 1`, with one update of item 3 (whose row hash is exactly
`tiePoint`). -/
def tieSketch : ReSketch :=
  (mkReSketch 1 2 [7] 5 [tiePoint, tiePoint + 1] []).update 3 9

/-! ## Counterexamples and failing runs -/

/-- C1 (counterexample): merging two compatible width-1 sketches does
not produce the spec's offset-concatenated ring.  `ReSketch::merge`
builds the merged sketch with the plain constructor, whose rings are
freshly drawn random points (here the draws 5 and 7) — not the sorted
concatenation of the sources' rings `[(10, 0), (20, 1)]`. -/
theorem c1_merge_ring_not_offset_concat :
    (mergeSketch sketchSeedOne sketchSeedTwo [5, 7] [] 9).toOption.map (fun m => m.rings) =
      some [[(5, 0), (7, 1)]] ∧
    [[((5 : Nat), (0 : Nat)), (7, 1)]] ≠
      [offsetConcatRing (sketchSeedOne.rings.getD 0 []) (sketchSeedTwo.rings.getD 0 [])
        sketchSeedOne.width] := by
  constructor
  · decide
  · decide

/-- C2 (counterexample): the remap precondition holds and the value 3
is stored in the input bucket `in_ring.lookup(3)` selects, yet
`_remap_row` places 3 in no output bucket at all: 3 lies in the wrap
region (below every ring point), and the wrap arc's range query
`(last, first]` is vacuous, so the mass is dropped. -/
theorem c2_remap_drops_wrap_value :
    wrapInBuckets.length = [((10 : Nat), (0 : Nat))].length ∧
    3 ∈ ((wrapInBuckets.getD (findBucketId 3 [(10, 0)]) defaultBucket).q_sketch.compactors.getD 0 []) ∧
    remapRow [(10, 0)] wrapInBuckets [(5, 0), (10, 1)] 9 = [Bucket.mk0 100 [], Bucket.mk0 100 []] ∧
    ¬ 3 ∈ (((remapRow [(10, 0)] wrapInBuckets [(5, 0), (10, 1)] 9).getD
      (findBucketId 3 [(5, 0), (10, 1)]) defaultBucket).q_sketch.compactors.getD 0 []) := by
  refine ⟨rfl, by decide, by decide, by decide⟩

/-- C3 (counterexample): two sketches that agree on depth and `kll_k`
but have different per-row seeds merge successfully — `ReSketch::merge`
compares only `m_depth` and `m_kll_config.k`, never the seeds (and the
class has no partition seed at all). -/
theorem c3_merge_ignores_seeds :
    sketchSeedOne.seeds ≠ sketchSeedTwo.seeds ∧
    sketchSeedOne.depth = sketchSeedTwo.depth ∧
    sketchSeedOne.kll_k = sketchSeedTwo.kll_k ∧
    (mergeSketch sketchSeedOne sketchSeedTwo [5, 7] [] 9).isOk = true := by
  refine ⟨by decide, rfl, rfl, by decide⟩

/-- C4 (failing run): `ReSketch::shrink(0)` on a width-2 sketch is not
rejected — the only guard is `new_width >= m_width`, so `new_width = 0`
passes and the sketch is rebuilt with zero buckets (with stored data
the C++ would then write through `out_buckets[0]` on an empty vector,
which is UB). -/
theorem c4_shrink_to_zero_not_rejected :
    0 < permRingSketch.width ∧
    (permRingSketch.shrink 0 permRingSketch.rings 9).isOk = true := by
  refine ⟨by decide, by decide⟩

/-- C5 (failing run): splitting the width-2 sketch whose ring is
`[(10, 1), (20, 0)]` into widths 1 + 1.  The first child keeps the
ring entry `(10, 1)` verbatim (no reindexing to `0 … w1-1`) while its
bucket vector is the first bucket by position — the embedded boolean
check that all ring ids are below the child's width evaluates to
`false`, so the child's ring references a bucket outside its own
bucket array (UB on the next `update`/`estimate` in the C++). -/
theorem c5_split_keeps_original_ids :
    (splitSketch permRingSketch 1 1 [3] [4] []).toOption.map
      (fun p => (p.1.rings, p.1.width, p.1.buckets.map List.length,
        decide (∀ r ∈ p.1.rings, ∀ e ∈ r, e.2 < p.1.width))) =
      some ([[(10, 1)]], 1, [1], false) := by decide

/-- C6 (counterexample): two sketches constructed with identical
depth, width, seeds and `kll_k` have different rings — construction
draws its ring points from a `std::random_device`-seeded generator
(modelled by the entropy stream), which the configuration does not
determine. -/
theorem c6_same_config_different_rings :
    (mkReSketch 1 2 [7] 5 [10, 20] []).depth = (mkReSketch 1 2 [7] 5 [20, 10] []).depth ∧
    (mkReSketch 1 2 [7] 5 [10, 20] []).width = (mkReSketch 1 2 [7] 5 [20, 10] []).width ∧
    (mkReSketch 1 2 [7] 5 [10, 20] []).seeds = (mkReSketch 1 2 [7] 5 [20, 10] []).seeds ∧
    (mkReSketch 1 2 [7] 5 [10, 20] []).kll_k = (mkReSketch 1 2 [7] 5 [20, 10] []).kll_k ∧
    (mkReSketch 1 2 [7] 5 [10, 20] []).rings ≠ (mkReSketch 1 2 [7] 5 [20, 10] []).rings := by
  refine ⟨rfl, rfl, rfl, rfl, by decide⟩

/-- C7 (counterexample): on a sketch whose row ring contains the exact
hash of item 3, `ReSketch::estimate` disagrees with the spec's
smallest-point-`≥` selection rule: `lower_bound` with key
`(h, uint32_max)` skips the entry whose point equals `h`, so the
update landed in (and the estimate reads) the next bucket. -/
theorem c7_estimate_tie_break :
    ReSketch.estimate tieSketch 3 ≠ specEstimateGE tieSketch 3 := by
  have h1 : tieSketch.estimateTotal 3 = 1 := by decide
  have h2 : ((tieSketch.buckets.getD 0 []).getD
      (specSelectGE (hashItem 3 (tieSketch.seeds.getD 0 0)) (tieSketch.rings.getD 0 []))
      defaultBucket).q_sketch.estimateVal (hashItem 3 (tieSketch.seeds.getD 0 0)) = 0 := by
    decide
  have hd : tieSketch.depth = 1 := rfl
  have e1 : ReSketch.estimate tieSketch 3 = 1 := by
    unfold ReSketch.estimate
    rw [h1, hd]
    norm_num
  have e2 : specEstimateGE tieSketch 3 = 0 := by
    unfold specEstimateGE
    rw [hd]
    simp only [List.range_succ, List.range_zero, List.nil_append, List.map_cons, List.map_nil,
      List.sum_cons, List.sum_nil]
    rw [h2]
    norm_num
  rw [e1, e2]
  exact one_ne_zero

/-- C9 (failing run): with `k = 3`, three updates trigger a compaction
of an odd-sized level; the in-place halving with offset 0 keeps 2 of 3
items at double weight, so the stored weight becomes 4 while `m_n`
is 3 — the level-weight invariant `Σ_L |level L| · 2^L = n` is broken. -/
theorem c9_odd_compaction_breaks_weight :
    oddCompactKLL.n = 3 ∧ oddCompactKLL.totalWeight = 4 ∧
    oddCompactKLL.n ≠ oddCompactKLL.totalWeight := by
  refine ⟨by decide, by decide, by decide⟩

/-! ## General list lemmas shared by the proofs -/

theorem foldl_add_map (l : List α) (f : α → Nat) (a : Nat) :
    l.foldl (fun acc x => acc + f x) a = a + (l.map f).sum := by
  induction l generalizing a with
  | nil => simp
  | cons x xs ih => simp [ih, Nat.add_assoc]

theorem enum_map_getD (l : List α) (f : Nat → α → β) (d : α) :
    l.enum.map (fun p => f p.1 p.2) = (List.range l.length).map (fun i => f i (l.getD i d)) := by
  apply List.ext_getElem
  · simp
  · intro i h1 h2
    have hi : i < l.length := by simpa using h2
    simp [List.getElem_enum, List.getD_eq_getElem, hi]

theorem enum_foldl_eq_sum (l : List α) (f : Nat → α → Nat) (d : α) :
    l.enum.foldl (fun acc p => acc + f p.1 p.2) 0 =
      ((List.range l.length).map (fun i => f i (l.getD i d))).sum := by
  rw [foldl_add_map l.enum (fun p => f p.1 p.2) 0, enum_map_getD l f d, Nat.zero_add]

theorem foldl_push_filter (p : Nat → Prop) [DecidablePred p] (l : List Nat) (a : List Nat) :
    l.foldl (fun acc v => if p v then acc ++ [v] else acc) a =
      a ++ l.filter (fun v => decide (p v)) := by
  induction l generalizing a with
  | nil => simp
  | cons x xs ih =>
    by_cases h : p x
    · simp [h, ih]
    · simp [h, ih]

theorem foldl_count_weight (p : Nat → Prop) [DecidablePred p] (w : Nat) (l : List Nat) (a : Nat) :
    l.foldl (fun acc v => if p v then acc + w else acc) a =
      a + l.countP (fun v => decide (p v)) * w := by
  induction l generalizing a with
  | nil => simp
  | cons x xs ih =>
    by_cases h : p x
    · simp [h, ih, List.countP_cons]
      ring
    · simp [h, ih, List.countP_cons]

/-! ## C1 and C3 (amended): what merge actually checks and builds -/

/-- C3 (amended): `ReSketch::merge` fails with `IncompatibleSketches`
exactly when the two sketches disagree on depth or on `kll_k`, and
succeeds exactly when both agree; per-row seeds (and any notion of a
partition seed) are never compared. -/
theorem c3_merge_error_iff (s1 s2 : ReSketch) (entropy : List Nat) (coins : List Bool)
    (fuel : Nat) :
    (mergeSketch s1 s2 entropy coins fuel = .error .incompatibleSketches ↔
      (s1.depth ≠ s2.depth ∨ s1.kll_k ≠ s2.kll_k)) ∧
    ((mergeSketch s1 s2 entropy coins fuel).isOk = true ↔
      (s1.depth = s2.depth ∧ s1.kll_k = s2.kll_k)) := by
  unfold mergeSketch
  by_cases h : s1.depth ≠ s2.depth ∨ s1.kll_k ≠ s2.kll_k
  · rw [if_pos h]
    constructor
    · exact ⟨fun _ => h, fun _ => rfl⟩
    · constructor
      · intro hc
        simp [Except.isOk, Except.toBool] at hc
      · intro hc
        tauto
  · rw [if_neg h]
    push_neg at h
    constructor
    · constructor
      · intro hc
        simp at hc
      · intro hc
        tauto
    · constructor
      · intro _
        exact h
      · intro _
        simp [Except.isOk, Except.toBool]

/-- C1 (amended): for compatible sketches `merge` succeeds with width
`s1.width + s2.width`, and the merged sketch's rings are the freshly
drawn rings of the plain constructor (random points with ids
`0 … new_w-1` assigned before sorting), not a combination of the
sources' rings. -/
theorem c1_merge_width_and_fresh_ring (s1 s2 : ReSketch) (entropy : List Nat)
    (coins : List Bool) (fuel : Nat) (hd : s1.depth = s2.depth) (hk : s1.kll_k = s2.kll_k) :
    ∃ m, mergeSketch s1 s2 entropy coins fuel = .ok m ∧
      m.width = s1.width + s2.width ∧
      m.rings = initRings s1.depth (s1.width + s2.width) entropy := by
  have hcond : ¬ (s1.depth ≠ s2.depth ∨ s1.kll_k ≠ s2.kll_k) := by
    push_neg
    exact ⟨hd, hk⟩
  unfold mergeSketch
  rw [if_neg hcond]
  exact ⟨_, rfl, rfl, rfl⟩

/-- Witness for C1 (amended) at the two concrete width-1 sketches. -/
theorem c1_merge_width_and_fresh_ring_witness :
    sketchSeedOne.depth = sketchSeedTwo.depth ∧ sketchSeedOne.kll_k = sketchSeedTwo.kll_k ∧
    ∃ m, mergeSketch sketchSeedOne sketchSeedTwo [5, 7] [] 9 = .ok m ∧
      m.width = sketchSeedOne.width + sketchSeedTwo.width ∧
      m.rings = initRings sketchSeedOne.depth (sketchSeedOne.width + sketchSeedTwo.width) [5, 7] :=
  ⟨rfl, rfl, c1_merge_width_and_fresh_ring sketchSeedOne sketchSeedTwo [5, 7] [] 9 rfl rfl⟩

/-! ## C6 (amended): determinism given the seeds and the random draws -/

theorem initRings_congr (depth width : Nat) (e1 e2 : List Nat)
    (h : ∀ j, j < depth * width → e1.getD j 0 = e2.getD j 0) :
    initRings depth width e1 = initRings depth width e2 := by
  unfold initRings
  apply List.map_congr_left
  intro i hi
  rw [List.mem_range] at hi
  congr 1
  apply List.map_congr_left
  intro j hj
  rw [List.mem_range] at hj
  have : i * width + j < depth * width := by
    calc i * width + j < i * width + width := by omega
    _ = (i + 1) * width := by ring
    _ ≤ depth * width := Nat.mul_le_mul_right width (by omega)
  rw [h _ this]

/-- C6 (amended): the sketch is deterministic given the configuration
*and* the random draws.  Two sketches built with the same depth,
width, seeds, `kll_k`, the same compaction-coin stream and entropy
streams that agree on the `depth · width` ring-point draws actually
consumed, then fed the same update sequence, are identical and give
identical estimates.  (The configuration alone does not determine the
rings — see the counterexample — because the draws come from
`std::random_device`.) -/
theorem c6_deterministic_given_draws (d w k fuel : Nat) (seeds e1 e2 : List Nat)
    (coins : List Bool) (us : List Nat)
    (he : ∀ j, j < d * w → e1.getD j 0 = e2.getD j 0) :
    us.foldl (fun s x => s.update x fuel) (mkReSketch d w seeds k e1 coins) =
      us.foldl (fun s x => s.update x fuel) (mkReSketch d w seeds k e2 coins) ∧
    ∀ x, (us.foldl (fun s x => s.update x fuel) (mkReSketch d w seeds k e1 coins)).estimate x =
      (us.foldl (fun s x => s.update x fuel) (mkReSketch d w seeds k e2 coins)).estimate x := by
  have hmk : mkReSketch d w seeds k e1 coins = mkReSketch d w seeds k e2 coins := by
    unfold mkReSketch
    rw [initRings_congr d w e1 e2 he]
  rw [hmk]
  exact ⟨rfl, fun _ => rfl⟩

/-- Witness for C6 (amended): a depth-1, width-1 build where the two
entropy streams agree on the single consumed draw but differ later. -/
theorem c6_deterministic_given_draws_witness :
    (∀ j, j < 1 * 1 → [(5 : Nat)].getD j 0 = [5, 99].getD j 0) ∧
    ([(3 : Nat)].foldl (fun s x => s.update x 9) (mkReSketch 1 1 [7] 5 [5] []) =
      [3].foldl (fun s x => s.update x 9) (mkReSketch 1 1 [7] 5 [5, 99] []) ∧
    ∀ x, ([(3 : Nat)].foldl (fun s x => s.update x 9) (mkReSketch 1 1 [7] 5 [5] [])).estimate x =
      ([3].foldl (fun s x => s.update x 9) (mkReSketch 1 1 [7] 5 [5, 99] [])).estimate x) :=
  ⟨by decide, c6_deterministic_given_draws 1 1 5 9 [7] [5] [5, 99] [] [3] (by decide)⟩

/-! ## C8 and C10: range counting and range rebuild -/

theorem rebuildLevel_eq_filter (lo hi : Nat) (lvl : List Nat) :
    rebuildLevel lo hi lvl = lvl.filter (fun v => decide (lo < v) && decide (v ≤ hi)) := by
  unfold rebuildLevel
  rw [foldl_push_filter (fun v => lo < v ∧ v ≤ hi) lvl []]
  simp [Bool.decide_and]

theorem rebuildWeight_eq (lo hi w : Nat) (lvl : List Nat) :
    rebuildWeight lo hi w lvl =
      lvl.countP (fun v => decide (lo < v) && decide (v ≤ hi)) * w := by
  unfold rebuildWeight
  rw [foldl_count_weight (fun v => lo < v ∧ v ≤ hi) w lvl 0]
  simp [Bool.decide_and]

theorem countInRange_eq_sum (s : KLL) (lo hi : Nat) :
    s.countInRange lo hi = ((List.range s.compactors.length).map (fun i =>
      ((s.compactors.getD i []).filter
        (fun v => decide (lo < v) && decide (v ≤ hi))).length * 2 ^ i)).sum := by
  unfold KLL.countInRange
  rw [enum_foldl_eq_sum s.compactors
    (fun i lvl => lvl.countP (fun v => decide (lo < v) && decide (v ≤ hi)) * 2 ^ i) []]
  apply congrArg List.sum
  apply List.map_congr_left
  intro i _
  rw [List.countP_eq_length_filter]

/-- C8: `get_count_in_range(lo, hi)` is the sum over levels `L` of
(number of stored values `v` at level `L` with `lo < v ≤ hi`) · `2^L`,
and `rebuild(lo, hi)` returns a KLL whose level-`L` array is exactly
the source's level-`L` values in `(lo, hi]` in order (same level
index, hence same weight, no recompaction), with the level count
preserved (a fresh KLL has one level, so an empty source yields one
empty level). -/
theorem c8_count_in_range_and_rebuild (s : KLL) (lo hi : Nat) :
    s.countInRange lo hi = ((List.range s.compactors.length).map (fun i =>
      ((s.compactors.getD i []).filter
        (fun v => decide (lo < v) && decide (v ≤ hi))).length * 2 ^ i)).sum ∧
    (s.rebuild lo hi).compactors.length = max 1 s.compactors.length ∧
    ∀ i, (s.rebuild lo hi).compactors.getD i [] =
      (s.compactors.getD i []).filter (fun v => decide (lo < v) && decide (v ≤ hi)) := by
  refine ⟨countInRange_eq_sum s lo hi, ?_, ?_⟩
  · unfold KLL.rebuild
    cases hc : s.compactors.isEmpty
    · have hne : s.compactors.length ≠ 0 := by
        simp [List.isEmpty_iff, List.length_eq_zero] at hc ⊢
        exact hc
      simp only [hc, Bool.false_eq_true, if_false, List.length_map]
      omega
    · have he : s.compactors = [] := List.isEmpty_iff.mp hc
      simp [hc, he]
  · intro i
    unfold KLL.rebuild
    cases hc : s.compactors.isEmpty
    · simp only [hc, Bool.false_eq_true, if_false]
      by_cases hi : i < s.compactors.length
      · rw [List.getD_eq_getElem _ _ (by simpa using hi), List.getElem_map,
          List.getD_eq_getElem _ _ hi, rebuildLevel_eq_filter]
      · rw [List.getD_eq_default _ _ (by simpa using Nat.le_of_not_lt hi),
          List.getD_eq_default _ _ (Nat.le_of_not_lt hi)]
        simp
    · have he : s.compactors = [] := List.isEmpty_iff.mp hc
      cases i <;> simp [hc, he, rebuildLevel_eq_filter]

/-- C10: the total count `n` of `rebuild(lo, hi)` equals
`get_count_in_range(lo, hi)` exactly: the retained items' summed
weights are precisely the range count, with no rounding discrepancy
(both are exact integers in the model, matching the integer-valued
doubles of the C++), so the bucket counts and KLL masses `_remap_row`
transfers per arc agree. -/
theorem c10_rebuild_n_eq_count_in_range (s : KLL) (lo hi : Nat) :
    (s.rebuild lo hi).n = s.countInRange lo hi := by
  unfold KLL.rebuild KLL.countInRange
  cases hc : s.compactors.isEmpty
  · simp only [hc, Bool.false_eq_true, if_false]
    rw [enum_foldl_eq_sum s.compactors (fun i lvl => rebuildWeight lo hi (2 ^ i) lvl) [],
      enum_foldl_eq_sum s.compactors
        (fun i lvl => lvl.countP (fun v => decide (lo < v) && decide (v ≤ hi)) * 2 ^ i) []]
    apply congrArg List.sum
    apply List.map_congr_left
    intro i _
    rw [rebuildWeight_eq]
  · have he : s.compactors = [] := List.isEmpty_iff.mp hc
    simp [hc, he, rebuildWeight]

/-! ## C7 (amended): what `_find_bucket_id` selects, and the estimate
formula -/

theorem find?_eq_head_filter (p : α → Bool) (l : List α) :
    l.find? p = (l.filter p).head? := by
  induction l with
  | nil => rfl
  | cons x xs ih =>
    cases hpx : p x
    · simp only [List.find?_cons, List.filter_cons, hpx]
      exact ih
    · simp [List.find?_cons, List.filter_cons, hpx]

theorem find?_congr (p q : α → Bool) (l : List α) (h : ∀ a ∈ l, p a = q a) :
    l.find? p = l.find? q := by
  induction l with
  | nil => rfl
  | cons x xs ih =>
    have hx := h x (List.mem_cons_self x xs)
    cases hpx : p x
    · have hqx : q x = false := hx.symm.trans hpx
      simp only [List.find?_cons, hpx, hqx]
      exact ih (fun a ha => h a (List.mem_cons_of_mem x ha))
    · have hqx : q x = true := hx.symm.trans hpx
      simp only [List.find?_cons, hpx, hqx]

theorem foldl_min_stays (m : Nat × Nat) (es : Ring) (h : ∀ x ∈ es, ¬ x.1 < m.1) :
    es.foldl (fun m x => if x.1 < m.1 then x else m) m = m := by
  induction es with
  | nil => rfl
  | cons y ys ih =>
    have hy := h y (List.mem_cons_self y ys)
    simp only [List.foldl_cons, if_neg hy]
    exact ih (fun x hx => h x (List.mem_cons_of_mem y hx))

theorem minByPoint_of_sorted (r : Ring) (hs : List.Pairwise (fun a b => a.1 < b.1) r) :
    minByPoint r = r.head? := by
  cases r with
  | nil => rfl
  | cons e es =>
    simp only [minByPoint, List.head?_cons, Option.some.injEq]
    exact foldl_min_stays e es (fun x hx => Nat.not_lt.mpr (Nat.le_of_lt
      ((List.pairwise_cons.mp hs).1 x hx)))

/-- On a ring sorted strictly by point with all bucket ids below
`uint32` max (every real ring: ids are `< width < 2^32`),
`_find_bucket_id`'s `lower_bound` with key `(h, uint32_max)` selects
the entry with the smallest point strictly greater than `h`, wrapping
to the front entry when none exists. -/
theorem findBucketId_eq_specSelectGT (h : Nat) (r : Ring)
    (hs : List.Pairwise (fun a b => a.1 < b.1) r)
    (hids : ∀ e ∈ r, e.2 < U32MAX) :
    findBucketId h r = specSelectGT h r := by
  unfold findBucketId specSelectGT
  rw [find?_congr _ (fun e => decide (h < e.1)) r (by
    intro e he
    have : ¬ U32MAX ≤ e.2 := Nat.not_le.mpr (hids e he)
    simp [this])]
  rw [find?_eq_head_filter]
  rw [minByPoint_of_sorted _ (hs.filter _)]
  cases hf : (r.filter (fun e => decide (h < e.1))).head? with
  | some e => rfl
  | none =>
    cases r with
    | nil => rfl
    | cons e es => rfl

theorem estimateTotal_eq_sum (s : ReSketch) (x : Nat) :
    s.estimateTotal x = ((List.range s.depth).map (fun i => s.rowEstimate x i)).sum := by
  unfold ReSketch.estimateTotal
  rw [foldl_add_map (List.range s.depth) (fun i => s.rowEstimate x i) 0, Nat.zero_add]

/-- C7 (amended): for every sketch with sorted rings, well-formed
bucket ids and depth ≥ 1, `estimate(x)` is the arithmetic mean over
the `d` rows of the selected bucket's KLL estimate of `h = Q_i(x)`,
where the selected bucket for each row is the ring entry with the
smallest point *strictly greater* than `h`, wrapping to the first
entry if no such point exists. -/
theorem c7_estimate_is_mean_with_strict_lookup (s : ReSketch) (x : Nat)
    (hd : 0 < s.depth)
    (hsorted : ∀ r ∈ s.rings, List.Pairwise (fun a b => a.1 < b.1) r)
    (hids : ∀ r ∈ s.rings, ∀ e ∈ r, e.2 < U32MAX) :
    s.estimate x = (((List.range s.depth).map (fun i =>
      ((((s.buckets.getD i []).getD
          (specSelectGT (hashItem x (s.seeds.getD i 0)) (s.rings.getD i []))
          defaultBucket).q_sketch.estimateVal (hashItem x (s.seeds.getD i 0)) : Nat) : ℚ))).sum) /
      (s.depth : ℚ) := by
  have hring : ∀ i, List.Pairwise (fun a b => a.1 < b.1) (s.rings.getD i []) ∧
      ∀ e ∈ s.rings.getD i [], e.2 < U32MAX := by
    intro i
    by_cases hi : i < s.rings.length
    · have hm : s.rings.getD i [] ∈ s.rings := by
        rw [List.getD_eq_getElem _ _ hi]
        exact List.getElem_mem hi
      exact ⟨hsorted _ hm, hids _ hm⟩
    · rw [List.getD_eq_default _ _ (Nat.le_of_not_lt hi)]
      exact ⟨List.Pairwise.nil, by simp⟩
  unfold ReSketch.estimate
  rw [estimateTotal_eq_sum, Nat.cast_list_sum, List.map_map]
  congr 1
  apply congrArg List.sum
  apply List.map_congr_left
  intro i _
  simp only [Function.comp_apply]
  congr 1
  simp only [ReSketch.rowEstimate]
  rw [findBucketId_eq_specSelectGT _ _ (hring i).1 (hring i).2]

/-- Witness for C7 (amended) on the concrete tie sketch. -/
theorem c7_estimate_is_mean_with_strict_lookup_witness :
    (0 < tieSketch.depth ∧
      (∀ r ∈ tieSketch.rings, List.Pairwise (fun a b => a.1 < b.1) r) ∧
      (∀ r ∈ tieSketch.rings, ∀ e ∈ r, e.2 < U32MAX)) ∧
    tieSketch.estimate 3 = (((List.range tieSketch.depth).map (fun i =>
      ((((tieSketch.buckets.getD i []).getD
          (specSelectGT (hashItem 3 (tieSketch.seeds.getD i 0)) (tieSketch.rings.getD i []))
          defaultBucket).q_sketch.estimateVal (hashItem 3 (tieSketch.seeds.getD i 0)) : Nat) : ℚ))).sum) /
      (tieSketch.depth : ℚ) :=
  ⟨⟨by decide, by decide, by decide⟩,
    c7_estimate_is_mean_with_strict_lookup tieSketch 3 (by decide) (by decide) (by decide)⟩

/-! ## C2 (amended): infrastructure

`_remap_row` is proved to route every value lying strictly inside a
refined arc to the output bucket the output ring assigns to it.  The
development needs basic facts about `updateAt` and `appendLevels`,
that `_compress` cannot fire when `k = 0` while all levels are below
the `uint32` capacity, sortedness/membership of `allPoints`, and
stability of `_find_bucket_id` along an arc free of ring points. -/

theorem updateAt_length (l : List α) (i : Nat) (f : α → α) :
    (updateAt l i f).length = l.length := by
  induction l generalizing i with
  | nil => rfl
  | cons x xs ih =>
    cases i with
    | zero => rfl
    | succ j => simp [updateAt, ih]

theorem updateAt_getD (l : List α) (i j : Nat) (f : α → α) (d : α) :
    (updateAt l i f).getD j d =
      if j = i ∧ j < l.length then f (l.getD j d) else l.getD j d := by
  induction l generalizing i j with
  | nil => simp [updateAt]
  | cons x xs ih =>
    cases i with
    | zero =>
      cases j with
      | zero => simp [updateAt]
      | succ j' => simp [updateAt]
    | succ i' =>
      cases j with
      | zero => simp [updateAt]
      | succ j' =>
        simp only [updateAt, List.getD_cons_succ, ih i' j']
        by_cases h : j' = i' ∧ j' < xs.length
        · rw [if_pos h, if_pos ⟨by omega, by simp; omega⟩]
        · rw [if_neg h, if_neg (by simp; omega)]

theorem mem_updateAt (l : List α) (i : Nat) (f : α → α) (b : α) (hb : b ∈ updateAt l i f) :
    b ∈ l ∨ ∃ a ∈ l, b = f a := by
  induction l generalizing i with
  | nil => simp [updateAt] at hb
  | cons x xs ih =>
    cases i with
    | zero =>
      rcases List.mem_cons.mp hb with h | h
      · exact Or.inr ⟨x, List.mem_cons_self x xs, h⟩
      · exact Or.inl (List.mem_cons_of_mem x h)
    | succ i' =>
      rcases List.mem_cons.mp hb with h | h
      · exact Or.inl (h ▸ List.mem_cons_self x xs)
      · rcases ih i' h with h' | ⟨a, ha, hfa⟩
        · exact Or.inl (List.mem_cons_of_mem x h')
        · exact Or.inr ⟨a, List.mem_cons_of_mem x ha, hfa⟩

theorem appendLevels_getD : ∀ (as bs : List (List Nat)) (i : Nat),
    (appendLevels as bs).getD i [] = as.getD i [] ++ bs.getD i []
  | as, [], i => by simp [appendLevels]
  | [], b :: bs, i => by
    cases i with
    | zero => simp [appendLevels]
    | succ j => simpa [appendLevels] using appendLevels_getD [] bs j
  | a :: as, b :: bs, i => by
    cases i with
    | zero => simp [appendLevels]
    | succ j => simpa [appendLevels] using appendLevels_getD as bs j

theorem forall_mem_appendLevels (as bs : List (List Nat)) (P : List Nat → Prop)
    (h : ∀ i, P (as.getD i [] ++ bs.getD i [])) :
    ∀ lvl ∈ appendLevels as bs, P lvl := by
  intro lvl hl
  obtain ⟨i, hi, hget⟩ := List.mem_iff_getElem.mp hl
  have h2 : lvl = as.getD i [] ++ bs.getD i [] := by
    rw [← appendLevels_getD as bs i, List.getD_eq_getElem _ _ hi, hget]
  rw [h2]
  exact h i

theorem compress_of_small (s : KLL) (fuel level : Nat) (hk : s.k = 0)
    (hsz : ∀ lvl ∈ s.compactors, lvl.length < U32MAX) :
    s.compress fuel level = s := by
  cases fuel with
  | zero => rfl
  | succ f =>
    have hguard : s.compactors.length ≤ level ∨
        (s.compactors.getD level []).length < levelCapacity s.k s.compactors.length level := by
      by_cases hl : s.compactors.length ≤ level
      · exact Or.inl hl
      · refine Or.inr ?_
        have hmem : s.compactors.getD level [] ∈ s.compactors := by
          rw [List.getD_eq_getElem _ _ (Nat.lt_of_not_le hl)]
          exact List.getElem_mem _
        rw [hk]
        unfold levelCapacity
        rw [if_pos rfl]
        exact hsz _ hmem
    unfold KLL.compress
    rw [if_pos hguard]

theorem compressAll_of_small (s : KLL) (fuel i : Nat) (hk : s.k = 0)
    (hsz : ∀ lvl ∈ s.compactors, lvl.length < U32MAX) :
    s.compressAll fuel i = s := by
  induction fuel generalizing i with
  | zero => rfl
  | succ f ih =>
    unfold KLL.compressAll
    by_cases hl : s.compactors.length ≤ i
    · rw [if_pos hl]
    · rw [if_neg hl]
      have hmem : s.compactors.getD i [] ∈ s.compactors := by
        rw [List.getD_eq_getElem _ _ (Nat.lt_of_not_le hl)]
        exact List.getElem_mem _
      have hcap : ¬ levelCapacity s.k s.compactors.length i ≤ (s.compactors.getD i []).length := by
        rw [hk]
        unfold levelCapacity
        rw [if_pos rfl]
        exact Nat.not_le.mpr (hsz _ hmem)
      rw [if_neg hcap]
      exact ih (i + 1)

theorem mergeKLL_no_compress (a b : KLL) (fuel : Nat) (hk : a.k = 0)
    (hsz : ∀ lvl ∈ appendLevels a.compactors b.compactors, lvl.length < U32MAX) :
    a.mergeKLL b fuel =
      { a with n := a.n + b.n, compactors := appendLevels a.compactors b.compactors } := by
  unfold KLL.mergeKLL
  exact compressAll_of_small _ _ _ hk hsz

theorem insertSorted_mem (x y : Nat) (l : List Nat) :
    y ∈ insertSorted x l ↔ y = x ∨ y ∈ l := by
  induction l with
  | nil => simp [insertSorted]
  | cons z zs ih =>
    unfold insertSorted
    by_cases h1 : x < z
    · rw [if_pos h1]
      simp only [List.mem_cons]
      try tauto
    · rw [if_neg h1]
      by_cases h2 : x = z
      · rw [if_pos h2]
        subst h2
        simp only [List.mem_cons]
        try tauto
      · rw [if_neg h2]
        simp only [List.mem_cons, ih]
        try tauto

theorem insertSorted_sorted (x : Nat) (l : List Nat) (hl : List.Pairwise (· < ·) l) :
    List.Pairwise (· < ·) (insertSorted x l) := by
  induction l with
  | nil => simp [insertSorted]
  | cons z zs ih =>
    unfold insertSorted
    rcases List.pairwise_cons.mp hl with ⟨hz, hzs⟩
    by_cases h1 : x < z
    · rw [if_pos h1]
      refine List.pairwise_cons.mpr ⟨?_, hl⟩
      intro y hy
      rcases List.mem_cons.mp hy with rfl | hy'
      · exact h1
      · exact Nat.lt_trans h1 (hz y hy')
    · rw [if_neg h1]
      by_cases h2 : x = z
      · rw [if_pos h2]
        exact hl
      · rw [if_neg h2]
        refine List.pairwise_cons.mpr ⟨?_, ih hzs⟩
        intro y hy
        rcases (insertSorted_mem x y zs).mp hy with rfl | hy'
        · omega
        · exact hz y hy'

theorem foldl_insertSorted_mem (l : List (Nat × Nat)) (acc : List Nat) (y : Nat) :
    y ∈ l.foldl (fun acc e => insertSorted e.1 acc) acc ↔
      y ∈ acc ∨ ∃ e ∈ l, e.1 = y := by
  induction l generalizing acc with
  | nil => simp
  | cons e es ih =>
    simp only [List.foldl_cons]
    rw [ih, insertSorted_mem]
    constructor
    · rintro ((rfl | h2) | ⟨a, ha, rfl⟩)
      · exact Or.inr ⟨e, List.mem_cons_self e es, rfl⟩
      · exact Or.inl h2
      · exact Or.inr ⟨a, List.mem_cons_of_mem e ha, rfl⟩
    · rintro (h | ⟨a, ha, rfl⟩)
      · exact Or.inl (Or.inr h)
      · rcases List.mem_cons.mp ha with rfl | ha'
        · exact Or.inl (Or.inl rfl)
        · exact Or.inr ⟨a, ha', rfl⟩

theorem foldl_insertSorted_sorted (l : List (Nat × Nat)) (acc : List Nat)
    (hacc : List.Pairwise (· < ·) acc) :
    List.Pairwise (· < ·) (l.foldl (fun acc e => insertSorted e.1 acc) acc) := by
  induction l generalizing acc with
  | nil => exact hacc
  | cons e es ih => exact ih _ (insertSorted_sorted _ _ hacc)

theorem allPoints_sorted (rin rout : Ring) : List.Pairwise (· < ·) (allPoints rin rout) :=
  foldl_insertSorted_sorted _ _ List.Pairwise.nil

theorem mem_allPoints (rin rout : Ring) (y : Nat) :
    y ∈ allPoints rin rout ↔ (∃ e ∈ rin, e.1 = y) ∨ ∃ e ∈ rout, e.1 = y := by
  unfold allPoints
  rw [foldl_insertSorted_mem]
  constructor
  · rintro (h | ⟨a, ha, rfl⟩)
    · simp at h
    · rcases List.mem_append.mp ha with h1 | h2
      · exact Or.inl ⟨a, h1, rfl⟩
      · exact Or.inr ⟨a, h2, rfl⟩
  · rintro (⟨a, ha, rfl⟩ | ⟨a, ha, rfl⟩)
    · exact Or.inr ⟨a, List.mem_append_left _ ha, rfl⟩
    · exact Or.inr ⟨a, List.mem_append_right _ ha, rfl⟩

theorem sorted_gap (P l1 l2 : List Nat) (prev cur : Nat)
    (hP : List.Pairwise (· < ·) P) (hdec : P = l1 ++ prev :: cur :: l2) :
    ∀ x ∈ P, ¬ (prev < x ∧ x < cur) := by
  subst hdec
  intro x hx
  rcases List.mem_append.mp hx with h1 | h2
  · have := (List.pairwise_append.mp hP).2.2 x h1 prev (by simp)
    omega
  · rcases List.mem_cons.mp h2 with rfl | h3
    · omega
    · rcases List.mem_cons.mp h3 with rfl | h4
      · omega
      · have hcons := (List.pairwise_append.mp hP).2.1
        have := (List.pairwise_cons.mp (List.pairwise_cons.mp hcons).2).1 x h4
        omega

theorem findBucketId_stable (r : Ring) (prev v : Nat)
    (hids : ∀ e ∈ r, e.2 < U32MAX)
    (hnr : ∀ e ∈ r, ¬ (prev < e.1 ∧ e.1 ≤ v)) (hpv : prev ≤ v) :
    findBucketId prev r = findBucketId v r := by
  unfold findBucketId
  rw [find?_congr _ (fun e => decide (v < e.1) || (decide (e.1 = v) && decide (U32MAX ≤ e.2))) r ?_]
  · intro e he
    have h2 : decide (U32MAX ≤ e.2) = false := decide_eq_false (Nat.not_le.mpr (hids e he))
    have h3 : (prev < e.1) ↔ (v < e.1) := by
      have := hnr e he
      constructor
      · intro h
        omega
      · intro h
        omega
    simp only [h2, Bool.and_false, Bool.or_false]
    exact decide_eq_decide.mpr h3

theorem findBucketId_lt_length (h : Nat) (r : Ring) (hne : r ≠ [])
    (hwf : ∀ e ∈ r, e.2 < r.length) :
    findBucketId h r < r.length := by
  unfold findBucketId
  cases hf : r.find? (fun e => decide (h < e.1) || (decide (e.1 = h) && decide (U32MAX ≤ e.2))) with
  | some e => exact hwf e (List.mem_of_find?_eq_some hf)
  | none =>
    cases r with
    | nil => exact absurd rfl hne
    | cons e es => exact hwf e (List.mem_cons_self e es)

theorem le_sum_of_mem (l : List Nat) (x : Nat) (hx : x ∈ l) : x ≤ l.sum := by
  induction l with
  | nil => simp at hx
  | cons y ys ih =>
    rcases List.mem_cons.mp hx with rfl | h
    · simp only [List.sum_cons]
      exact Nat.le_add_right _ _
    · have := ih h
      simp only [List.sum_cons]
      omega

theorem getD_lt_length_of_mem (l : List (List Nat)) (L v : Nat) (hv : v ∈ l.getD L []) :
    L < l.length := by
  by_contra hc
  rw [List.getD_eq_default _ _ (Nat.le_of_not_lt hc)] at hv
  exact absurd hv (List.not_mem_nil v)

theorem getD_length_le (l : List (List Nat)) (i B : Nat) (h : ∀ lvl ∈ l, lvl.length ≤ B) :
    (l.getD i []).length ≤ B := by
  by_cases hi : i < l.length
  · refine h _ ?_
    rw [List.getD_eq_getElem _ _ hi]
    exact List.getElem_mem _
  · rw [List.getD_eq_default _ _ (Nat.le_of_not_lt hi)]
    simp

theorem inb_levels_le (bks : List Bucket) (T i : Nat)
    (hT : ∀ b ∈ bks, ∀ lvl ∈ b.q_sketch.compactors, lvl.length ≤ T) :
    ∀ lvl ∈ (bks.getD i defaultBucket).q_sketch.compactors, lvl.length ≤ T := by
  by_cases hi : i < bks.length
  · refine hT _ ?_
    rw [List.getD_eq_getElem _ _ hi]
    exact List.getElem_mem _
  · rw [List.getD_eq_default _ _ (Nat.le_of_not_lt hi)]
    intro lvl hl
    simp [defaultBucket, KLL.default0] at hl

theorem countInRange_pos (q : KLL) (lo hi v L : Nat)
    (hv : v ∈ q.compactors.getD L []) (hlo : lo < v) (hhi : v ≤ hi) :
    0 < q.countInRange lo hi := by
  have hL : L < q.compactors.length := getD_lt_length_of_mem _ _ _ hv
  rw [countInRange_eq_sum]
  have hvf : v ∈ (q.compactors.getD L []).filter
      (fun w => decide (lo < w) && decide (w ≤ hi)) := by
    rw [List.mem_filter]
    exact ⟨hv, by simp [hlo, hhi]⟩
  have hpos : 0 < ((q.compactors.getD L []).filter
      (fun w => decide (lo < w) && decide (w ≤ hi))).length * 2 ^ L :=
    Nat.mul_pos (List.length_pos.mpr (List.ne_nil_of_mem hvf)) (pow_pos (by omega) L)
  have hmm : ((q.compactors.getD L []).filter
      (fun w => decide (lo < w) && decide (w ≤ hi))).length * 2 ^ L ∈
      (List.range q.compactors.length).map (fun i =>
        ((q.compactors.getD i []).filter
          (fun w => decide (lo < w) && decide (w ≤ hi))).length * 2 ^ i) :=
    List.mem_map.mpr ⟨L, List.mem_range.mpr hL, rfl⟩
  exact Nat.lt_of_lt_of_le hpos (le_sum_of_mem _ _ hmm)

theorem rebuild_levels_le (q : KLL) (lo hi T : Nat)
    (hq : ∀ lvl ∈ q.compactors, lvl.length ≤ T) :
    ∀ lvl ∈ (q.rebuild lo hi).compactors, lvl.length ≤ T := by
  intro lvl hl
  unfold KLL.rebuild at hl
  simp only at hl
  rcases List.mem_map.mp hl with ⟨lvl0, h0, rfl⟩
  rw [rebuildLevel_eq_filter]
  refine Nat.le_trans (List.length_filter_le _ _) ?_
  cases hc : q.compactors.isEmpty
  · rw [hc] at h0
    simp only [Bool.false_eq_true, if_false] at h0
    exact hq _ h0
  · rw [hc] at h0
    simp only [if_true] at h0
    rcases List.mem_singleton.mp h0 with rfl
    simp

theorem rebuild_mem (q : KLL) (lo hi v L : Nat)
    (hv : v ∈ q.compactors.getD L []) (hlo : lo < v) (hhi : v ≤ hi) :
    v ∈ (q.rebuild lo hi).compactors.getD L [] := by
  have hL : L < q.compactors.length := getD_lt_length_of_mem _ _ _ hv
  have hc : q.compactors.isEmpty = false := by
    cases hq : q.compactors
    · exact absurd hL (by rw [hq]; simp)
    · rfl
  unfold KLL.rebuild
  simp only [hc, Bool.false_eq_true, if_false]
  rw [List.getD_eq_getElem _ _ (by simpa using hL), List.getElem_map,
    rebuildLevel_eq_filter, List.mem_filter]
  refine ⟨?_, by simp [hlo, hhi]⟩
  rw [← List.getD_eq_getElem _ _ hL]
  exact hv

theorem bucketsItemCount_bound (bks : List Bucket) :
    ∀ b ∈ bks, ∀ lvl ∈ b.q_sketch.compactors, lvl.length ≤ bucketsItemCount bks := by
  intro b hb lvl hl
  unfold bucketsItemCount
  have h1 : lvl.length ≤ (b.q_sketch.compactors.map List.length).sum :=
    le_sum_of_mem _ _ (List.mem_map.mpr ⟨lvl, hl, rfl⟩)
  have h2 : (b.q_sketch.compactors.map List.length).sum ≤
      (bks.map (fun b => (b.q_sketch.compactors.map List.length).sum)).sum :=
    le_sum_of_mem _ _ (List.mem_map.mpr ⟨b, hb, rfl⟩)
  omega

/-- `remapStep` unfolded (the `let`s of the loop body made explicit). -/
theorem remapStep_eq (rin rout : Ring) (bks : List Bucket) (fuel prev cur : Nat)
    (acc : List Bucket) :
    remapStep rin rout bks fuel prev cur acc =
      if 0 < (bks.getD (findBucketId prev rin) defaultBucket).q_sketch.countInRange prev cur then
        updateAt acc (findBucketId prev rout) (fun b =>
          { count := b.count +
              (bks.getD (findBucketId prev rin) defaultBucket).q_sketch.countInRange prev cur,
            q_sketch := b.q_sketch.mergeKLL
              ((bks.getD (findBucketId prev rin) defaultBucket).q_sketch.rebuild prev cur)
              fuel })
      else acc := rfl

/-- One remap arc preserves the `k = 0` discipline, grows level sizes
by at most the total input item count, keeps the bucket-vector length,
and never removes a stored value from any bucket level. -/
theorem remapStep_inv (rin rout : Ring) (bks : List Bucket) (fuel prev cur T B : Nat)
    (hT : ∀ b ∈ bks, ∀ lvl ∈ b.q_sketch.compactors, lvl.length ≤ T)
    (acc : List Bucket)
    (hk : ∀ b ∈ acc, b.q_sketch.k = 0)
    (hsz : ∀ b ∈ acc, ∀ lvl ∈ b.q_sketch.compactors, lvl.length ≤ B)
    (hB : B + T < U32MAX) :
    (∀ b ∈ remapStep rin rout bks fuel prev cur acc, b.q_sketch.k = 0) ∧
    (∀ b ∈ remapStep rin rout bks fuel prev cur acc,
      ∀ lvl ∈ b.q_sketch.compactors, lvl.length ≤ B + T) ∧
    (remapStep rin rout bks fuel prev cur acc).length = acc.length ∧
    (∀ j L w, w ∈ ((acc.getD j defaultBucket).q_sketch.compactors.getD L []) →
      w ∈ (((remapStep rin rout bks fuel prev cur acc).getD j
        defaultBucket).q_sketch.compactors.getD L [])) := by
  rw [remapStep_eq]
  by_cases hcnt : 0 < (bks.getD (findBucketId prev rin) defaultBucket).q_sketch.countInRange
      prev cur
  · rw [if_pos hcnt]
    have hRlev : ∀ lvl ∈ ((bks.getD (findBucketId prev rin)
        defaultBucket).q_sketch.rebuild prev cur).compactors, lvl.length ≤ T :=
      rebuild_levels_le _ _ _ _ (inb_levels_le bks T _ hT)
    have hmerged : ∀ b ∈ acc,
        (b.q_sketch.mergeKLL ((bks.getD (findBucketId prev rin)
          defaultBucket).q_sketch.rebuild prev cur) fuel) =
        { b.q_sketch with
            n := b.q_sketch.n + ((bks.getD (findBucketId prev rin)
              defaultBucket).q_sketch.rebuild prev cur).n,
            compactors := appendLevels b.q_sketch.compactors
              ((bks.getD (findBucketId prev rin)
                defaultBucket).q_sketch.rebuild prev cur).compactors } := by
      intro b hb
      refine mergeKLL_no_compress _ _ _ (hk b hb) ?_
      apply forall_mem_appendLevels
      intro i
      have h1 := getD_length_le b.q_sketch.compactors i B (hsz b hb)
      have h2 := getD_length_le ((bks.getD (findBucketId prev rin)
        defaultBucket).q_sketch.rebuild prev cur).compactors i T hRlev
      rw [List.length_append]
      omega
    refine ⟨?_, ?_, updateAt_length _ _ _, ?_⟩
    · intro b hb
      rcases mem_updateAt _ _ _ _ hb with h | ⟨a, ha, rfl⟩
      · exact hk b h
      · simp only [hmerged a ha]
        exact hk a ha
    · intro b hb
      rcases mem_updateAt _ _ _ _ hb with h | ⟨a, ha, rfl⟩
      · intro lvl hl
        exact Nat.le_trans (hsz b h lvl hl) (Nat.le_add_right _ _)
      · simp only [hmerged a ha]
        apply forall_mem_appendLevels
        intro i
        have h1 := getD_length_le a.q_sketch.compactors i B (hsz a ha)
        have h2 := getD_length_le ((bks.getD (findBucketId prev rin)
          defaultBucket).q_sketch.rebuild prev cur).compactors i T hRlev
        rw [List.length_append]
        omega
    · intro j L w hw
      rw [updateAt_getD]
      by_cases hj : j = findBucketId prev rout ∧ j < acc.length
      · rw [if_pos hj]
        have hjmem : acc.getD j defaultBucket ∈ acc := by
          rw [List.getD_eq_getElem _ _ hj.2]
          exact List.getElem_mem _
        simp only [hmerged _ hjmem]
        rw [appendLevels_getD]
        exact List.mem_append_left _ hw
      · rw [if_neg hj]
        exact hw
  · rw [if_neg hcnt]
    refine ⟨hk, ?_, rfl, fun j L w hw => hw⟩
    intro b hb lvl hl
    exact Nat.le_trans (hsz b hb lvl hl) (Nat.le_add_right _ _)

/-- The arc `(prev, cur]` containing `v` merges `v` (at its level)
into the output bucket `out_ring.lookup(v)`. -/
theorem remapStep_places (rin rout : Ring) (bks : List Bucket) (fuel prev cur T B v L : Nat)
    (acc : List Bucket)
    (hT : ∀ b ∈ bks, ∀ lvl ∈ b.q_sketch.compactors, lvl.length ≤ T)
    (hk : ∀ b ∈ acc, b.q_sketch.k = 0)
    (hsz : ∀ b ∈ acc, ∀ lvl ∈ b.q_sketch.compactors, lvl.length ≤ B)
    (hB : B + T < U32MAX)
    (hin_eq : findBucketId prev rin = findBucketId v rin)
    (hout_eq : findBucketId prev rout = findBucketId v rout)
    (hout_lt : findBucketId v rout < acc.length)
    (hpv : prev < v) (hvc : v ≤ cur)
    (hmem : v ∈ ((bks.getD (findBucketId v rin)
      defaultBucket).q_sketch.compactors.getD L [])) :
    v ∈ (((remapStep rin rout bks fuel prev cur acc).getD (findBucketId v rout)
      defaultBucket).q_sketch.compactors.getD L []) := by
  rw [remapStep_eq, hin_eq, hout_eq]
  have hcnt : 0 < (bks.getD (findBucketId v rin)
      defaultBucket).q_sketch.countInRange prev cur :=
    countInRange_pos _ _ _ _ _ hmem hpv hvc
  rw [if_pos hcnt, updateAt_getD, if_pos ⟨rfl, hout_lt⟩]
  have hbmem : acc.getD (findBucketId v rout) defaultBucket ∈ acc := by
    rw [List.getD_eq_getElem _ _ hout_lt]
    exact List.getElem_mem _
  have hRlev : ∀ lvl ∈ ((bks.getD (findBucketId v rin)
      defaultBucket).q_sketch.rebuild prev cur).compactors, lvl.length ≤ T :=
    rebuild_levels_le _ _ _ _ (inb_levels_le bks T _ hT)
  have hsmall : ∀ lvl ∈ appendLevels
      (acc.getD (findBucketId v rout) defaultBucket).q_sketch.compactors
      ((bks.getD (findBucketId v rin)
        defaultBucket).q_sketch.rebuild prev cur).compactors, lvl.length < U32MAX := by
    apply forall_mem_appendLevels
    intro i
    have h1 := getD_length_le _ i B (hsz _ hbmem)
    have h2 := getD_length_le _ i T hRlev
    rw [List.length_append]
    omega
  show v ∈ (((acc.getD (findBucketId v rout) defaultBucket).q_sketch.mergeKLL
    ((bks.getD (findBucketId v rin) defaultBucket).q_sketch.rebuild prev cur)
    fuel).compactors.getD L [])
  rw [mergeKLL_no_compress _ _ _ (hk _ hbmem) hsmall]
  show v ∈ ((appendLevels (acc.getD (findBucketId v rout) defaultBucket).q_sketch.compactors
    ((bks.getD (findBucketId v rin)
      defaultBucket).q_sketch.rebuild prev cur).compactors).getD L [])
  rw [appendLevels_getD]
  exact List.mem_append_right _ (rebuild_mem _ _ _ _ _ hmem hpv hvc)

theorem remapGo_inv (rin rout : Ring) (bks : List Bucket) (fuel T : Nat)
    (hT : ∀ b ∈ bks, ∀ lvl ∈ b.q_sketch.compactors, lvl.length ≤ T) :
    ∀ (rest : List Nat) (prev : Nat) (acc : List Bucket) (B : Nat),
      (∀ b ∈ acc, b.q_sketch.k = 0) →
      (∀ b ∈ acc, ∀ lvl ∈ b.q_sketch.compactors, lvl.length ≤ B) →
      B + rest.length * T < U32MAX →
      (∀ b ∈ remapGo rin rout bks fuel rest prev acc, b.q_sketch.k = 0) ∧
      (∀ b ∈ remapGo rin rout bks fuel rest prev acc,
        ∀ lvl ∈ b.q_sketch.compactors, lvl.length ≤ B + rest.length * T) ∧
      (remapGo rin rout bks fuel rest prev acc).length = acc.length := by
  intro rest
  induction rest with
  | nil =>
    intro prev acc B hk hsz _
    exact ⟨hk, by simpa using hsz, rfl⟩
  | cons cur rest' ih =>
    intro prev acc B hk hsz hbound
    have harith : B + (rest'.length + 1) * T = (B + T) + rest'.length * T := by ring
    rw [List.length_cons, harith] at hbound
    have hBT : B + T < U32MAX := Nat.lt_of_le_of_lt (Nat.le_add_right _ _) hbound
    obtain ⟨hk1, hsz1, hlen1, _⟩ :=
      remapStep_inv rin rout bks fuel prev cur T B hT acc hk hsz hBT
    have hrec := ih cur (remapStep rin rout bks fuel prev cur acc) (B + T) hk1 hsz1 hbound
    refine ⟨hrec.1, ?_, hrec.2.2.trans hlen1⟩
    intro b hb lvl hl
    rw [List.length_cons, harith]
    exact hrec.2.1 b hb lvl hl

theorem remapGo_mem (rin rout : Ring) (bks : List Bucket) (fuel T : Nat)
    (hT : ∀ b ∈ bks, ∀ lvl ∈ b.q_sketch.compactors, lvl.length ≤ T) :
    ∀ (rest : List Nat) (prev : Nat) (acc : List Bucket) (B j L w : Nat),
      (∀ b ∈ acc, b.q_sketch.k = 0) →
      (∀ b ∈ acc, ∀ lvl ∈ b.q_sketch.compactors, lvl.length ≤ B) →
      B + rest.length * T < U32MAX →
      w ∈ ((acc.getD j defaultBucket).q_sketch.compactors.getD L []) →
      w ∈ (((remapGo rin rout bks fuel rest prev acc).getD j
        defaultBucket).q_sketch.compactors.getD L []) := by
  intro rest
  induction rest with
  | nil =>
    intro prev acc B j L w _ _ _ hw
    exact hw
  | cons cur rest' ih =>
    intro prev acc B j L w hk hsz hbound hw
    have harith : B + (rest'.length + 1) * T = (B + T) + rest'.length * T := by ring
    rw [List.length_cons, harith] at hbound
    have hBT : B + T < U32MAX := Nat.lt_of_le_of_lt (Nat.le_add_right _ _) hbound
    obtain ⟨hk1, hsz1, _, hpres⟩ :=
      remapStep_inv rin rout bks fuel prev cur T B hT acc hk hsz hBT
    exact ih cur _ (B + T) j L w hk1 hsz1 hbound (hpres j L w hw)

theorem remapGo_append_cons (rin rout : Ring) (bks : List Bucket) (fuel : Nat) :
    ∀ (xs : List Nat) (y : Nat) (ys : List Nat) (p0 : Nat) (acc : List Bucket),
      remapGo rin rout bks fuel (xs ++ y :: ys) p0 acc =
        remapGo rin rout bks fuel ys y
          (remapStep rin rout bks fuel (xs.getLastD p0) y
            (remapGo rin rout bks fuel xs p0 acc)) := by
  intro xs
  induction xs with
  | nil =>
    intro y ys p0 acc
    rfl
  | cons x xs' ih =>
    intro y ys p0 acc
    show remapGo rin rout bks fuel (xs' ++ y :: ys) x
        (remapStep rin rout bks fuel p0 x acc) = _
    rw [ih]
    rw [List.getLastD_cons]
    rfl

theorem remapRow_eq_go (rin rout : Ring) (b0 : Bucket) (bs : List Bucket) (fuel last : Nat)
    (hlast : (allPoints rin rout).getLast? = some last) :
    remapRow rin (b0 :: bs) rout fuel =
      remapGo rin rout (b0 :: bs) fuel (allPoints rin rout) last
        (rout.map (fun _ => Bucket.mk0 b0.q_sketch.k [])) := by
  show remapCore rin rout (b0 :: bs) fuel b0.q_sketch.k = _
  unfold remapCore
  rw [hlast]

/-- C2 (amended): for every input ring, input bucket vector and output
ring satisfying the remap precondition (with well-formed output ids
and conditions ensuring the KLL merges perform no compaction: `k = 0`,
i.e. unlimited level capacity, and input mass small enough that no
level can reach the `uint32` capacity), every hash value `v` stored at
any level `L` in the input bucket selected by `in_ring.lookup(v)` that
lies *strictly inside a refined arc* — strictly between two adjacent
points of the sorted union of the two rings' points — is placed by
`_remap_row`, at the same level `L`, in the output bucket
`out_ring.lookup(v)`.  (Values equal to a union point or in the wrap
region are dropped or misrouted; see the counterexample.) -/
theorem c2_remap_places_interior_value
    (in_ring out_ring : Ring) (in_buckets : List Bucket) (fuel v L prev cur : Nat)
    (l1 l2 : List Nat)
    (hne : in_buckets ≠ [])
    (hlen : in_buckets.length = in_ring.length)
    (hne_out : out_ring ≠ [])
    (hids_in : ∀ e ∈ in_ring, e.2 < U32MAX)
    (hids_out : ∀ e ∈ out_ring, e.2 < U32MAX)
    (hwf_out : ∀ e ∈ out_ring, e.2 < out_ring.length)
    (hk0 : (in_buckets.headD defaultBucket).q_sketch.k = 0)
    (hdec : allPoints in_ring out_ring = l1 ++ prev :: cur :: l2)
    (hpv : prev < v) (hvc : v < cur)
    (hmem : v ∈ ((in_buckets.getD (findBucketId v in_ring)
      defaultBucket).q_sketch.compactors.getD L []))
    (hbound : (allPoints in_ring out_ring).length * bucketsItemCount in_buckets < U32MAX) :
    v ∈ (((remapRow in_ring in_buckets out_ring fuel).getD (findBucketId v out_ring)
      defaultBucket).q_sketch.compactors.getD L []) := by
  have hT := bucketsItemCount_bound in_buckets
  have hgap := sorted_gap _ l1 l2 prev cur (allPoints_sorted in_ring out_ring) hdec
  have hnr_in : ∀ e ∈ in_ring, ¬ (prev < e.1 ∧ e.1 ≤ v) := by
    intro e he hcon
    exact hgap e.1 ((mem_allPoints _ _ _).mpr (Or.inl ⟨e, he, rfl⟩))
      ⟨hcon.1, Nat.lt_of_le_of_lt hcon.2 hvc⟩
  have hnr_out : ∀ e ∈ out_ring, ¬ (prev < e.1 ∧ e.1 ≤ v) := by
    intro e he hcon
    exact hgap e.1 ((mem_allPoints _ _ _).mpr (Or.inr ⟨e, he, rfl⟩))
      ⟨hcon.1, Nat.lt_of_le_of_lt hcon.2 hvc⟩
  have hstab_in := findBucketId_stable in_ring prev v hids_in hnr_in (Nat.le_of_lt hpv)
  have hstab_out := findBucketId_stable out_ring prev v hids_out hnr_out (Nat.le_of_lt hpv)
  have hPne : allPoints in_ring out_ring ≠ [] := by
    intro h
    rw [hdec] at h
    simp at h
  obtain ⟨last, hlast⟩ : ∃ a, (allPoints in_ring out_ring).getLast? = some a := by
    cases hl : (allPoints in_ring out_ring).getLast? with
    | none => exact absurd (List.getLast?_eq_none_iff.mp hl) hPne
    | some a => exact ⟨a, rfl⟩
  obtain ⟨b0, bs, rfl⟩ : ∃ b0 bs, in_buckets = b0 :: bs := by
    cases in_buckets with
    | nil => exact absurd rfl hne
    | cons a l => exact ⟨a, l, rfl⟩
  rw [remapRow_eq_go in_ring out_ring b0 bs fuel last hlast]
  have hk0' : b0.q_sketch.k = 0 := hk0
  have hkout : ∀ b ∈ out_ring.map (fun _ => Bucket.mk0 b0.q_sketch.k []),
      b.q_sketch.k = 0 := by
    intro b hb
    rcases List.mem_map.mp hb with ⟨e, _, rfl⟩
    exact hk0'
  have hszout : ∀ b ∈ out_ring.map (fun _ => Bucket.mk0 b0.q_sketch.k []),
      ∀ lvl ∈ b.q_sketch.compactors, lvl.length ≤ 0 := by
    intro b hb lvl hl
    rcases List.mem_map.mp hb with ⟨e, _, rfl⟩
    simp only [Bucket.mk0, KLL.mk0, List.mem_singleton] at hl
    simp [hl]
  have hPlen : (allPoints in_ring out_ring).length = l1.length + l2.length + 2 := by
    rw [hdec]
    simp [List.length_append]
    omega
  have hdec2 : allPoints in_ring out_ring = (l1 ++ [prev]) ++ cur :: l2 := by
    rw [hdec]
    simp
  rw [hdec2, remapGo_append_cons, List.getLastD_concat]
  have hBpre : 0 + (l1 ++ [prev]).length * bucketsItemCount (b0 :: bs) < U32MAX := by
    have hle : (l1 ++ [prev]).length * bucketsItemCount (b0 :: bs) ≤
        (allPoints in_ring out_ring).length * bucketsItemCount (b0 :: bs) := by
      apply Nat.mul_le_mul_right
      rw [hPlen]
      simp [List.length_append]
      try omega
    omega
  obtain ⟨hkPre, hszPre, hlenPre⟩ :=
    remapGo_inv in_ring out_ring (b0 :: bs) fuel (bucketsItemCount (b0 :: bs)) hT
      (l1 ++ [prev]) last (out_ring.map (fun _ => Bucket.mk0 b0.q_sketch.k [])) 0
      hkout hszout hBpre
  have houtlt : findBucketId v out_ring <
      (remapGo in_ring out_ring (b0 :: bs) fuel (l1 ++ [prev]) last
        (out_ring.map (fun _ => Bucket.mk0 b0.q_sketch.k []))).length := by
    rw [hlenPre, List.length_map]
    exact findBucketId_lt_length v out_ring hne_out hwf_out
  have hBstep : (l1 ++ [prev]).length * bucketsItemCount (b0 :: bs) +
      bucketsItemCount (b0 :: bs) < U32MAX := by
    have h1 : (l1 ++ [prev]).length * bucketsItemCount (b0 :: bs) +
        bucketsItemCount (b0 :: bs) =
        ((l1 ++ [prev]).length + 1) * bucketsItemCount (b0 :: bs) := by ring
    have h2 : ((l1 ++ [prev]).length + 1) * bucketsItemCount (b0 :: bs) ≤
        (allPoints in_ring out_ring).length * bucketsItemCount (b0 :: bs) := by
      apply Nat.mul_le_mul_right
      rw [hPlen]
      simp [List.length_append]
      try omega
    omega
  have hplaced := remapStep_places in_ring out_ring (b0 :: bs) fuel prev cur
    (bucketsItemCount (b0 :: bs)) ((l1 ++ [prev]).length * bucketsItemCount (b0 :: bs))
    v L _ hT hkPre (by simpa using hszPre) hBstep hstab_in hstab_out houtlt hpv
    (Nat.le_of_lt hvc) hmem
  obtain ⟨hk2, hsz2, _, _⟩ :=
    remapStep_inv in_ring out_ring (b0 :: bs) fuel prev cur
      (bucketsItemCount (b0 :: bs)) ((l1 ++ [prev]).length * bucketsItemCount (b0 :: bs))
      hT _ hkPre (by simpa using hszPre) hBstep
  have hbound2 : ((l1 ++ [prev]).length * bucketsItemCount (b0 :: bs) +
      bucketsItemCount (b0 :: bs)) + l2.length * bucketsItemCount (b0 :: bs) < U32MAX := by
    have heq : ((l1 ++ [prev]).length * bucketsItemCount (b0 :: bs) +
        bucketsItemCount (b0 :: bs)) + l2.length * bucketsItemCount (b0 :: bs) =
        (allPoints in_ring out_ring).length * bucketsItemCount (b0 :: bs) := by
      rw [hPlen]
      simp [List.length_append]
      ring
    omega
  exact remapGo_mem in_ring out_ring (b0 :: bs) fuel (bucketsItemCount (b0 :: bs)) hT
    l2 cur _ ((l1 ++ [prev]).length * bucketsItemCount (b0 :: bs) +
      bucketsItemCount (b0 :: bs)) (findBucketId v out_ring) L v hk2 hsz2 hbound2 hplaced

/-- Witness for C2 (amended): the value 7 sits strictly inside the
arc `(5, 10]` of the union `[5, 10, 15]`; the remap places it in
output bucket `out_ring.lookup(7) = 1`. -/
theorem c2_remap_places_interior_value_witness :
    (wInBuckets ≠ [] ∧ wInBuckets.length = wInRing.length ∧ wOutRing ≠ [] ∧
      (∀ e ∈ wInRing, e.2 < U32MAX) ∧ (∀ e ∈ wOutRing, e.2 < U32MAX) ∧
      (∀ e ∈ wOutRing, e.2 < wOutRing.length) ∧
      (wInBuckets.headD defaultBucket).q_sketch.k = 0 ∧
      allPoints wInRing wOutRing = [] ++ 5 :: 10 :: [15] ∧
      5 < 7 ∧ 7 < 10 ∧
      7 ∈ ((wInBuckets.getD (findBucketId 7 wInRing)
        defaultBucket).q_sketch.compactors.getD 0 []) ∧
      (allPoints wInRing wOutRing).length * bucketsItemCount wInBuckets < U32MAX) ∧
    7 ∈ (((remapRow wInRing wInBuckets wOutRing 9).getD (findBucketId 7 wOutRing)
      defaultBucket).q_sketch.compactors.getD 0 []) :=
  ⟨⟨by decide, by decide, by decide, by decide, by decide, by decide, by decide, by decide,
    by decide, by decide, by decide, by decide⟩,
    c2_remap_places_interior_value wInRing wOutRing wInBuckets 9 7 0 5 10 [] [15]
      (by decide) (by decide) (by decide) (by decide) (by decide) (by decide) (by decide)
      (by decide) (by decide) (by decide) (by decide) (by decide)⟩

end ReSketchModel
